import Mathlib

/-!
Verification development for `rag_rago_cache.cpp`: a fixed-capacity
least-recently-used cache (`LruBox`), a deterministic pseudo-retrieval
(`fake_retrieval`), a token-budgeted context assembler (`build_context`),
an adaptive knob selector (`pick_knobs`), and the request orchestrator
(`serve_one`).

Modelling conventions:
* The C++ `LruBox` keeps a `std::deque<K> order_` (front = most recently
  used) and an `std::unordered_map` `slots_` from key to (value, iterator).
  Under the class invariant these two structures are a bijection, so the
  embedding represents them together as a single list of (key, value)
  entries in recency order (front = most recently used): `slots_` is the
  list read as an association map, `order_` is its list of keys.
* `size_t` arithmetic is modelled on `Nat`; C++ conversion of a signed
  integer to `size_t` is modelled as reduction modulo 2^64.
* Operations that can reach undefined behavior in the C++ source
  (`order_.back()` / `pop_back()` on an empty deque) return `Option`,
  with `none` marking the undefined-behavior path.
* Wall-clock sleeps and timing measurements are not modelled; the data
  flow (cache states, identifier lists, assembled text, flags) is.
* C++ `double` values (`pick_knobs`) are modelled exactly as dyadic
  numbers (`F64`, a significand-exponent pair denoting `m * 2^e`) under
  strict IEEE-754 binary64 semantics (`FLT_EVAL_METHOD == 0`):
  comparison of finite doubles is exact comparison of the represented
  values, and multiplication rounds the exact product to nearest, ties
  to even. In particular the literal `0.55` denotes the binary64 value
  `2476979795053773 * 2^-52 = 0.55000000000000004440892098500626…`,
  which is strictly greater than the real `0.55`. Infinities, NaNs and
  overflow are not modelled (no product the program forms can overflow
  for finite inputs, since both multiplier literals are below 1).
-/

/-- Embeds the C++ class `LruBox<K, V>`: `cap` is `cap_`; `entries` fuses
`order_` and `slots_` as a list of (key, value) pairs in recency order,
front = most recently used, back = least recently used. -/
structure LruBox (K V : Type) where
  cap : Nat
  entries : List (K × V)
deriving DecidableEq

/-- A freshly constructed `LruBox(cap)` with no entries. -/
def LruBox.empty (K V : Type) (cap : Nat) : LruBox K V := ⟨cap, []⟩

/-- Embeds construction of `LruBox` from a (possibly negative) integer
capacity: the C++ parameter is `size_t`, so the argument is converted
modulo 2^64 before being stored in `cap_`. -/
def LruBox.fromCapInt (K V : Type) (cap : Int) : LruBox K V :=
  ⟨(cap % (18446744073709551616 : Int)).toNat, []⟩

variable {K V : Type} [DecidableEq K]

/-- The keys currently cached, in recency order (the deque `order_`). -/
def LruBox.keys (s : LruBox K V) : List K := s.entries.map Prod.fst

/-- Embeds `LruBox::size()`, i.e. `slots_.size()`. -/
def LruBox.size (s : LruBox K V) : Nat := s.entries.length

/-- Embeds `LruBox::get(key)`: on absence returns `none` with the state
unchanged; on presence moves the entry to the most-recently-used front
(the `touch` of its `order_` position) and returns the stored value.
The result pairs the returned `optional<V>` with the post-call state. -/
def LruBox.get (s : LruBox K V) (k : K) : Option V × LruBox K V :=
  match s.entries.find? (fun e => decide (e.1 = k)) with
  | none => (none, s)
  | some e => (some e.2, ⟨s.cap, e :: s.entries.eraseP (fun e => decide (e.1 = k))⟩)

/-- Embeds `LruBox::put(key, value)`. If the key is present, the value is
replaced and the entry touched to the front. Otherwise if
`order_.size() >= cap_`, the source reads `order_.back()` and pops it;
on an empty deque (capacity 0) that is undefined behavior, modelled as
`none`. Otherwise the new entry is pushed to the front. -/
def LruBox.put (s : LruBox K V) (k : K) (v : V) : Option (LruBox K V) :=
  if (s.entries.find? (fun e => decide (e.1 = k))).isSome then
    some ⟨s.cap, (k, v) :: s.entries.eraseP (fun e => decide (e.1 = k))⟩
  else if s.cap ≤ s.entries.length then
    match s.entries.getLast? with
    | none => none
    | some _ => some ⟨s.cap, (k, v) :: s.entries.dropLast⟩
  else
    some ⟨s.cap, (k, v) :: s.entries⟩

/-- A sequence of `put` operations, applied left to right; `none` as soon
as one `put` reaches the undefined-behavior path. -/
def LruBox.putList (s : LruBox K V) : List (K × V) → Option (LruBox K V)
  | [] => some s
  | kv :: rest =>
    match s.put kv.1 kv.2 with
    | none => none
    | some s2 => s2.putList rest

/-- Embeds `fake_doc_text(doc_id)`. -/
def fake_doc_text (doc_id : Int) : String :=
  "Doc#" ++ toString doc_id ++ " :: " ++
    "A short block of evidence text used for grounding."

/-- Modelled from the spec: the i-th draw of
`std::uniform_int_distribution<int>(0, 200000)` from an `std::mt19937`
seeded (via `std::seed_seq`) from the bytes of `q`. That generator stack
is standard-library code outside this repository, and the algorithm of
`uniform_int_distribution` is implementation-defined; the spec guarantees
only that the draw sequence is deterministic in the request text and that
values lie in the fixed range, so the draws are modelled by a concrete
deterministic hash of the text and the draw index into [0, 200000]. -/
def rng_draw (q : String) (i : Nat) : Int :=
  ((q.data.foldl (fun h c => (h * 131 + c.toNat + 7) % 1000003) i) % 200001 : Nat)

/-- Embeds `fake_retrieval(q, top_k)`: draw `top_k` pseudo-random scores
seeded from `q`, `std::sort` them ascending, then `std::unique` + `erase`
to drop adjacent duplicates. `std::sort` is modelled by `insertionSort`
(the ascending sorted permutation of an integer list is unique, so any
correct sort yields the same list); `std::unique` keeps the first element
of every run of equal neighbours, which is `destutter (· ≠ ·)`. -/
def fake_retrieval (q : String) (top_k : Int) : List Int :=
  let hits := (List.range top_k.toNat).map (fun i => rng_draw q i)
  (List.insertionSort (fun a b => a ≤ b) hits).destutter (fun a b => a ≠ b)

/-- One iteration of the lookup done by `build_context`'s loop body for a
single identifier: `block_cache.get(id)`, the cached text on a hit, and
`fake_doc_text` stored through `block_cache.put` on a miss. Returns the
piece together with the cache state after the lookup. -/
def resolve_one (c : LruBox Int String) (id : Int) : Option (String × LruBox Int String) :=
  match c.get id with
  | (some piece, c2) => some (piece, c2)
  | (none, c2) => (c2.put id (fake_doc_text id)).map (fun c3 => (fake_doc_text id, c3))

/-- The loop of `build_context`: for each identifier resolve its piece
through the cache, then break before appending when
`tokens_left - cost < 0` (cost is the fixed 40), otherwise subtract the
cost and append the piece followed by `"\n"` to `stitched`. -/
def build_context_go : List Int → LruBox Int String → Int → String →
    Option (String × LruBox Int String)
  | [], c, _, stitched => some (stitched, c)
  | id :: rest, c, tokens_left, stitched =>
    match resolve_one c id with
    | none => none
    | some (piece, c2) =>
      if tokens_left - 40 < 0 then some (stitched, c2)
      else build_context_go rest c2 (tokens_left - 40) (stitched ++ piece ++ "\n")

/-- Embeds `build_context(doc_ids, block_cache, token_budget)`; the result
pairs the stitched text with the fragment cache state after the call. -/
def build_context (doc_ids : List Int) (block_cache : LruBox Int String)
    (token_budget : Int) : Option (String × LruBox Int String) :=
  build_context_go doc_ids block_cache token_budget ""

/-- Resolves every identifier of a list through the fragment cache in
order (the loop of `build_context` with the budget check removed), used to
characterize which prefix of the identifiers `build_context` touches. -/
def resolve_list : List Int → LruBox Int String → Option (List String × LruBox Int String)
  | [], c => some ([], c)
  | id :: rest, c =>
    match resolve_one c id with
    | none => none
    | some (p, c2) =>
      match resolve_list rest c2 with
      | none => none
      | some (ps, c3) => some (p :: ps, c3)

/-- How many fragments the budget loop appends for a given identifier
count and starting budget: mirrors the `tokens_left` countdown of
`build_context`. -/
def appendCount : Nat → Int → Nat
  | 0, _ => 0
  | n + 1, tokens_left =>
    if tokens_left - 40 < 0 then 0 else appendCount n (tokens_left - 40) + 1

/-- Concatenation of the appended pieces, each followed by the single
`"\n"` separator that `build_context` appends after every piece. -/
def joinPieces : List String → String
  | [] => ""
  | p :: rest => p ++ "\n" ++ joinPieces rest

/-- Embeds `fake_generate(question, context, cheap_mode)`: the returned
answer text (the `tiny_pause_ms` sleep is wall-clock only and carries no
data). `context.size()` counts bytes, i.e. `utf8ByteSize`. -/
def fake_generate (question : String) (context : String) (cheap_mode : Bool) : String :=
  let _base : Int := if cheap_mode then 12 else 20
  "Answer: " ++ question ++ "\n(grounded in " ++
    toString context.utf8ByteSize ++ " bytes of context)"

/-- A finite IEEE-754 binary64 (`double`) value, represented exactly as
the dyadic number `m * 2^e`. The representation is not required to be
normalized; all operations are functions of the represented value. -/
structure F64 where
  m : Int
  e : Int
deriving DecidableEq

/-- The exact rational value an `F64` represents. -/
def F64.toRat (x : F64) : ℚ := (x.m : ℚ) * (2 : ℚ) ^ x.e

/-- Double comparison `x < y`: IEEE comparison of finite doubles is exact
comparison of the represented values, computed here on integers by
shifting to a common exponent. -/
def F64.blt (x y : F64) : Bool :=
  if x.e ≤ y.e then x.m < y.m * 2 ^ (y.e - x.e).toNat
  else x.m * 2 ^ (x.e - y.e).toNat < y.m

/-- The number of binary digits of a natural number (`0` for `0`), by
structural recursion on a fuel argument; fuel 2200 is ample for every
number this file forms (a product of two binary64 significands has at
most 107 bits). -/
def bitLenAux : Nat → Nat → Nat
  | 0, _ => 0
  | fuel + 1, n => if n = 0 then 0 else bitLenAux fuel (n / 2) + 1

def bitLen (n : Nat) : Nat := bitLenAux 2200 n

/-- Round the exact dyadic `m * 2^e` to the nearest binary64 value, ties
to even: `E` is the floor of the base-2 logarithm of the magnitude, and
the result is quantized at the ulp exponent `s = E - 52`, clamped at
`-1074` for subnormal magnitudes (overflow to infinity is not modelled;
no caller in this file can reach it). -/
def F64.round (m e : Int) : F64 :=
  if m = 0 then ⟨0, 0⟩ else
  let L : Int := (bitLen m.natAbs : Int)
  let E : Int := e + L - 1
  let s : Int := if E - 52 < -1074 then -1074 else E - 52
  if s ≤ e then ⟨m, e⟩ else
  let k : Nat := (s - e).toNat
  let d : Int := 2 ^ k
  let a : Int := (m.natAbs : Int)
  let qt : Int := a / d
  let r : Int := a % d
  let qt2 : Int :=
    if 2 * r < d then qt
    else if d < 2 * r then qt + 1
    else if qt % 2 = 0 then qt else qt + 1
  ⟨if m < 0 then -qt2 else qt2, s⟩

/-- Binary64 multiplication: the exact product of the represented values,
rounded to nearest even. -/
def F64.mul (x y : F64) : F64 := F64.round (x.m * y.m) (x.e + y.e)

/-- The binary64 value of the C++ literal `0.55`: the double nearest to
11/20, namely `2476979795053773 * 2^-52`, strictly greater than the real
`0.55`. -/
def lit055 : F64 := ⟨2476979795053773, -52⟩

/-- The binary64 value of the C++ literal `0.25`, exactly representable. -/
def lit025 : F64 := ⟨1, -2⟩

/-- Embeds `struct TuneKnobs`. -/
structure TuneKnobs where
  top_k : Int
  batch : Int
  cheap_mode : Bool
deriving DecidableEq

/-- Embeds `pick_knobs(p95_budget_ms, recent_retr_ms, recent_gen_ms)`.
The C++ `double` parameters and arithmetic are modelled exactly on `F64`
under strict binary64 semantics: `recent_gen_ms > p95_budget_ms * 0.55`
compares `recent_gen_ms` with the rounded double product of the budget
and the double value of the literal `0.55` (`lit055`), and likewise for
the batch test with `0.25` (`lit025`, exact). -/
def pick_knobs (p95_budget_ms recent_retr_ms recent_gen_ms : F64) : TuneKnobs :=
  let top_k : Int :=
    if F64.blt (F64.mul p95_budget_ms lit055) recent_gen_ms then 6 else 10
  let cheap_mode : Bool :=
    if F64.blt (F64.mul p95_budget_ms lit055) recent_gen_ms then true else false
  let batch : Int :=
    if F64.blt (F64.mul p95_budget_ms lit025) recent_retr_ms then 16 else 8
  ⟨top_k, batch, cheap_mode⟩

/-- The observable outcome of `serve_one`: the `cache_hit` flag of the
returned `Timings`, the document identifiers used, the generated answer,
and the two cache states after the call. The four duration fields of
`Timings` are wall-clock measurements and are not modelled. -/
structure ServeOut where
  cache_hit : Bool
  doc_ids : List Int
  answer : String
  retr_cache : LruBox String (List Int)
  block_cache : LruBox Int String
deriving DecidableEq

/-- Embeds `serve_one(question, retr_cache, block_cache, knobs)`. The
async retrieval task is pure (it touches neither cache and only returns
`fake_retrieval(question, knobs.top_k)`), so fork + join collapse to the
value it returns; on a miss that value is stored in the retrieval cache
before context assembly. `none` marks the undefined-behavior paths of
`LruBox::put` on a zero-capacity cache. -/
def serve_one (question : String) (retr_cache : LruBox String (List Int))
    (block_cache : LruBox Int String) (knobs : TuneKnobs) : Option ServeOut :=
  let cached := retr_cache.get question
  let hit := cached.1.isSome
  let doc_ids :=
    match cached.1 with
    | some ids => ids
    | none => fake_retrieval question knobs.top_k
  match (if hit then some cached.2 else cached.2.put question doc_ids) with
  | none => none
  | some rc =>
    let token_budget : Int := if knobs.cheap_mode then 220 else 320
    match build_context doc_ids block_cache token_budget with
    | none => none
    | some (context, bc) =>
      let answer := fake_generate question context knobs.cheap_mode
      some ⟨hit, doc_ids, answer, rc, bc⟩

/-! ### Basic lemmas about `LruBox` -/

theorem find?_key_eq_none {l : List (K × V)} {k : K} :
    l.find? (fun e => decide (e.1 = k)) = none ↔ k ∉ l.map Prod.fst := by
  rw [List.find?_eq_none]
  simp only [decide_eq_true_eq, List.mem_map]
  constructor
  · rintro h ⟨e, he, rfl⟩
    exact h e he rfl
  · rintro h e he rfl
    exact h ⟨e, he, rfl⟩

theorem LruBox.get_of_not_mem {s : LruBox K V} {k : K} (h : k ∉ s.keys) :
    s.get k = (none, s) := by
  unfold LruBox.get
  rw [find?_key_eq_none.mpr h]

theorem find?_key_isSome {l : List (K × V)} {k : K} :
    (l.find? (fun e => decide (e.1 = k))).isSome ↔ k ∈ l.map Prod.fst := by
  rw [Option.isSome_iff_ne_none, ne_eq, find?_key_eq_none, not_not]

theorem LruBox.get_none_snd {s : LruBox K V} {k : K} (h : (s.get k).1 = none) :
    (s.get k).2 = s := by
  unfold LruBox.get at *
  rcases hf : s.entries.find? (fun e => decide (e.1 = k)) with _ | e
  · rw [hf]
  · rw [hf] at h
    simp at h

theorem LruBox.put_of_not_mem {s : LruBox K V} {k : K} {v : V} (h : k ∉ s.keys)
    (hlt : s.entries.length < s.cap) :
    s.put k v = some ⟨s.cap, (k, v) :: s.entries⟩ := by
  unfold LruBox.put
  rw [find?_key_eq_none.mpr h]
  simp [Nat.not_le.mpr hlt]

theorem LruBox.put_evict {s : LruBox K V} {k : K} {v : V} (h : k ∉ s.keys)
    (hfull : s.cap ≤ s.entries.length) (hne : s.entries ≠ []) :
    s.put k v = some ⟨s.cap, (k, v) :: s.entries.dropLast⟩ := by
  unfold LruBox.put
  rw [find?_key_eq_none.mpr h]
  rcases hl : s.entries.getLast? with _ | e
  · exact absurd (List.getLast?_eq_none_iff.mp hl) hne
  · simp [hfull, hl]

theorem LruBox.put_of_mem {s : LruBox K V} {k : K} {v : V} (h : k ∈ s.keys) :
    s.put k v = some ⟨s.cap, (k, v) :: s.entries.eraseP (fun e => decide (e.1 = k))⟩ := by
  unfold LruBox.put
  rw [if_pos (find?_key_isSome.mpr h)]

theorem LruBox.put_some_of_cap_pos (s : LruBox K V) (k : K) (v : V)
    (h : 0 < s.cap) :
    ∃ tl, s.put k v = some ⟨s.cap, (k, v) :: tl⟩ := by
  by_cases hp : k ∈ s.keys
  · exact ⟨_, LruBox.put_of_mem hp⟩
  · by_cases hfull : s.cap ≤ s.entries.length
    · have hne : s.entries ≠ [] :=
        List.length_pos.mp (lt_of_lt_of_le h hfull)
      exact ⟨_, LruBox.put_evict hp hfull hne⟩
    · exact ⟨_, LruBox.put_of_not_mem hp (Nat.not_le.mp hfull)⟩

theorem LruBox.put_cap {s s2 : LruBox K V} {k : K} {v : V}
    (h : s.put k v = some s2) : s2.cap = s.cap := by
  unfold LruBox.put at h
  by_cases hp : (s.entries.find? (fun e => decide (e.1 = k))).isSome
  · simp only [hp, if_true] at h
    cases h
    rfl
  · simp only [hp, if_false] at h
    by_cases hfull : s.cap ≤ s.entries.length
    · simp only [hfull, if_true] at h
      rcases hl : s.entries.getLast? with _ | e <;> rw [hl] at h
      · cases h
      · cases h
        rfl
    · simp only [hfull, if_false] at h
      cases h
      rfl

theorem LruBox.put_head {s s2 : LruBox K V} {k : K} {v : V}
    (h : s.put k v = some s2) : ∃ tl, s2.entries = (k, v) :: tl := by
  unfold LruBox.put at h
  by_cases hp : (s.entries.find? (fun e => decide (e.1 = k))).isSome
  · simp only [hp, if_true] at h
    cases h
    exact ⟨_, rfl⟩
  · simp only [hp, if_false] at h
    by_cases hfull : s.cap ≤ s.entries.length
    · simp only [hfull, if_true] at h
      rcases hl : s.entries.getLast? with _ | e <;> rw [hl] at h
      · cases h
      · cases h
        exact ⟨_, rfl⟩
    · simp only [hfull, if_false] at h
      cases h
      exact ⟨_, rfl⟩

theorem LruBox.put_size_le {s s2 : LruBox K V} {k : K} {v : V}
    (hinv : s.size ≤ s.cap) (h : s.put k v = some s2) : s2.size ≤ s.cap := by
  unfold LruBox.put at h
  by_cases hp : (s.entries.find? (fun e => decide (e.1 = k))).isSome
  · rw [if_pos hp] at h
    cases h
    obtain ⟨e, he⟩ := Option.isSome_iff_exists.mp hp
    have hmem := List.mem_of_find?_eq_some he
    have hpe := List.find?_some he
    have hlen := @List.length_eraseP_of_mem _ s.entries e (fun e => decide (e.1 = k)) hmem hpe
    have hpos : 0 < s.entries.length :=
      List.length_pos.mpr (by intro hnil; rw [hnil] at hmem; simp at hmem)
    simp only [LruBox.size, List.length_cons] at *
    omega
  · rw [if_neg hp] at h
    by_cases hfull : s.cap ≤ s.entries.length
    · rw [if_pos hfull] at h
      rcases hl : s.entries.getLast? with _ | e <;> rw [hl] at h
      · cases h
      · cases h
        have hne : s.entries ≠ [] := by
          intro hnil; rw [hnil] at hl; simp at hl
        have hpos : 0 < s.entries.length := List.length_pos.mpr hne
        simp only [LruBox.size, List.length_cons, List.length_dropLast] at *
        omega
    · rw [if_neg hfull] at h
      cases h
      simp only [LruBox.size, List.length_cons] at *
      omega

theorem LruBox.putList_size_le :
    ∀ (ops : List (K × V)) (s s2 : LruBox K V),
      s.size ≤ s.cap → s.putList ops = some s2 → s2.size ≤ s.cap
  | [], s, s2, hinv, h => by
    unfold LruBox.putList at h
    cases h
    exact hinv
  | kv :: rest, s, s2, hinv, h => by
    unfold LruBox.putList at h
    rcases hput : s.put kv.1 kv.2 with _ | s1 <;> rw [hput] at h
    · cases h
    · have h1 : s1.size ≤ s1.cap := (LruBox.put_cap hput) ▸ LruBox.put_size_le hinv hput
      have := LruBox.putList_size_le rest s1 s2 h1 h
      rwa [LruBox.put_cap hput] at this

theorem LruBox.putList_append (l₁ l₂ : List (K × V)) (s : LruBox K V) :
    s.putList (l₁ ++ l₂) = (s.putList l₁).bind (fun s2 => s2.putList l₂) := by
  induction l₁ generalizing s with
  | nil => rfl
  | cons kv rest ih =>
    rcases hput : s.put kv.1 kv.2 with _ | s1
    · simp only [List.cons_append, LruBox.putList, hput]
      rfl
    · simp only [List.cons_append, LruBox.putList, hput]
      exact ih s1

theorem LruBox.putList_fresh :
    ∀ (l : List (K × V)) (s : LruBox K V),
      (l.map Prod.fst).Nodup →
      (∀ k ∈ l.map Prod.fst, k ∉ s.keys) →
      s.entries.length + l.length ≤ s.cap →
      s.putList l = some ⟨s.cap, l.reverse ++ s.entries⟩
  | [], s, _, _, _ => rfl
  | e :: l', s, hnd, hfresh, hroom => by
    have he : e.1 ∉ s.keys := hfresh e.1 (by simp)
    have hlt : s.entries.length < s.cap := by
      simp only [List.length_cons] at hroom
      omega
    unfold LruBox.putList
    rw [LruBox.put_of_not_mem he hlt]
    have hnd' : (l'.map Prod.fst).Nodup := by
      simp only [List.map_cons, List.nodup_cons] at hnd
      exact hnd.2
    have hhead : e.1 ∉ l'.map Prod.fst := by
      simp only [List.map_cons, List.nodup_cons] at hnd
      exact hnd.1
    have hfresh' : ∀ k ∈ l'.map Prod.fst,
        k ∉ (⟨s.cap, e :: s.entries⟩ : LruBox K V).keys := by
      intro k hk
      simp only [LruBox.keys, List.map_cons, List.mem_cons]
      rintro (rfl | hmem)
      · exact hhead hk
      · exact hfresh k (by simp [hk]) hmem
    have hroom' : (e :: s.entries).length + l'.length ≤ s.cap := by
      simp only [List.length_cons] at *
      omega
    have := LruBox.putList_fresh l' ⟨s.cap, e :: s.entries⟩ hnd' hfresh' hroom'
    show (⟨s.cap, e :: s.entries⟩ : LruBox K V).putList l' = _
    rw [this]
    rw [List.reverse_cons, List.append_assoc]
    rfl

theorem LruBox.get_head (cap : Nat) (e : K × V) (tl : List (K × V)) :
    (⟨cap, e :: tl⟩ : LruBox K V).get e.1 = (some e.2, ⟨cap, e :: tl⟩) := by
  unfold LruBox.get
  rw [List.find?_cons_of_pos _ (by simp), List.eraseP_cons_of_pos (by simp)]

theorem LruBox.get_mem_entry (cap : Nat) (l1 : List (K × V)) (e : K × V)
    (l2 : List (K × V)) (hfresh : e.1 ∉ l1.map Prod.fst) :
    (⟨cap, l1 ++ e :: l2⟩ : LruBox K V).get e.1 =
      (some e.2, ⟨cap, e :: (l1 ++ l2)⟩) := by
  have hnotp : ∀ b ∈ l1, ¬ (fun x => decide (x.1 = e.1)) b = true := by
    intro b hb
    simp only [decide_eq_true_eq]
    intro heq
    exact hfresh (List.mem_map.mpr ⟨b, hb, heq⟩)
  unfold LruBox.get
  rw [List.find?_append, find?_key_eq_none.mpr hfresh, Option.none_or,
    List.find?_cons_of_pos _ (by simp),
    List.eraseP_append_right _ hnotp, List.eraseP_cons_of_pos (by simp)]

theorem LruBox.get_some_spec {s : LruBox K V} {k : K} {v : V}
    (h : (s.get k).1 = some v) :
    ∃ tl, s.get k = (some v, ⟨s.cap, (k, v) :: tl⟩) ∧
      ((k, v) :: tl).length = s.entries.length := by
  unfold LruBox.get at *
  rcases hf : s.entries.find? (fun e => decide (e.1 = k)) with _ | e
  · rw [hf] at h
    simp at h
  · rw [hf] at h ⊢
    simp only [Option.some.injEq] at h
    have hk : e.1 = k := by
      have := List.find?_some hf
      simpa using this
    have hmem := List.mem_of_find?_eq_some hf
    have hlen := @List.length_eraseP_of_mem _ s.entries e
      (fun e => decide (e.1 = k)) hmem (by simp [hk])
    have hpos : 0 < s.entries.length :=
      List.length_pos.mpr (by intro hnil; rw [hnil] at hmem; simp at hmem)
    have he : e = (k, v) := by
      rw [← hk, ← h]
    refine ⟨s.entries.eraseP (fun e => decide (e.1 = k)), by rw [he], ?_⟩
    simp only [List.length_cons]
    omega

/-! ### Claim C1: capacity invariant and single LRU eviction -/

/-- C1: for every capacity `cap` and every sequence of `put` operations on
a cache of that capacity, after each returning `put` the cache holds at
most `cap` entries; and when a `put` of a new key finds the cache full,
exactly one entry — the least-recently-used one, at the back of the
recency order — is evicted before the new entry is inserted at the front,
leaving the size equal to the capacity. -/
theorem spec_C1 :
    (∀ (cap : Nat) (ops : List (K × V)) (s2 : LruBox K V),
        (LruBox.empty K V cap).putList ops = some s2 → s2.size ≤ cap) ∧
    (∀ (s : LruBox K V) (k : K) (v : V),
        s.size = s.cap → 0 < s.cap → k ∉ s.keys →
        ∃ old s2, s.entries.getLast? = some old ∧ s.put k v = some s2 ∧
          s2.entries = (k, v) :: s.entries.dropLast ∧ s2.size = s.cap) := by
  constructor
  · intro cap ops s2 h
    exact LruBox.putList_size_le ops (LruBox.empty K V cap) s2 (by simp [LruBox.size, LruBox.empty]) h
  · intro s k v hsz hpos hmem
    have hlenpos : 0 < s.entries.length := by
      have := hsz
      simp only [LruBox.size] at this
      omega
    have hne : s.entries ≠ [] := List.length_pos.mp hlenpos
    have hfull : s.cap ≤ s.entries.length := le_of_eq hsz.symm
    obtain ⟨old, hold⟩ : ∃ old, s.entries.getLast? = some old := by
      rcases hl : s.entries.getLast? with _ | e
      · exact absurd (List.getLast?_eq_none_iff.mp hl) hne
      · exact ⟨e, rfl⟩
    refine ⟨old, ⟨s.cap, (k, v) :: s.entries.dropLast⟩, hold,
      LruBox.put_evict hmem hfull hne, rfl, ?_⟩
    simp only [LruBox.size, List.length_cons, List.length_dropLast]
    simp only [LruBox.size] at hsz
    omega

/-- Witness for `spec_C1`: three puts of distinct keys on an empty
capacity-2 cache stay within the capacity, and a put of the fresh key 3 on
the full cache `[(2, 20), (1, 10)]` evicts the least-recently-used entry
`(1, 10)`. -/
theorem spec_C1_witness :
    (⟨2, [(3, 30), (2, 20)]⟩ : LruBox Nat Nat).size ≤ 2 ∧
    (∃ old s2, ((⟨2, [(2, 20), (1, 10)]⟩ : LruBox Nat Nat)).entries.getLast? = some old ∧
      (⟨2, [(2, 20), (1, 10)]⟩ : LruBox Nat Nat).put 3 30 = some s2 ∧
      s2.entries = (3, 30) :: ((⟨2, [(2, 20), (1, 10)]⟩ : LruBox Nat Nat)).entries.dropLast ∧
      s2.size = 2) :=
  ⟨(@spec_C1 Nat Nat _).1 2 [(1, 10), (2, 20), (3, 30)] ⟨2, [(3, 30), (2, 20)]⟩ (by decide),
   (@spec_C1 Nat Nat _).2 ⟨2, [(2, 20), (1, 10)]⟩ 3 30 (by decide) (by decide) (by decide)⟩

/-! ### Claim C2: recency correctness -/

theorem nodup_sandwich {α : Type} {x : α} {mid : List α} {y : α}
    (h : (x :: (mid ++ [y])).Nodup) :
    x ∉ mid ∧ x ≠ y ∧ mid.Nodup ∧ y ∉ mid := by
  rcases List.nodup_cons.mp h with ⟨hx, hrest⟩
  rw [List.mem_append, List.mem_singleton] at hx
  push_neg at hx
  rcases List.nodup_append.mp hrest with ⟨hmid, _, hdisj⟩
  exact ⟨hx.1, hx.2, hmid, fun hmem => hdisj hmem (List.mem_singleton.mpr rfl)⟩

/-- C2 fails as frozen at capacity C = 1: on a capacity-1 cache, after
`put 0`, a `get 0` immediately before the 2nd `put` does NOT retain the
first key — key 0 is still the least-recently-used (only) entry and is
evicted, and the "second-inserted" key 1 is the one present. -/
theorem spec_C2_counterexample :
    ∃ s1 s2 : LruBox Nat Nat,
      (LruBox.empty Nat Nat 1).put 0 100 = some s1 ∧
      ((s1.get 0).2).put 1 101 = some s2 ∧
      (0 : Nat) ∉ s2.keys ∧ (1 : Nat) ∈ s2.keys :=
  ⟨⟨1, [(0, 100)]⟩, ⟨1, [(1, 101)]⟩, by decide, by decide, by decide, by decide⟩

/-- C2 (amended): inserting C+1 distinct keys into an empty capacity-C
cache (C = `es.length + 1` ≥ 1) with the first key never re-accessed
evicts exactly the first-inserted key; and — for capacities
C = `es.length + 2` ≥ 2 — if the first key is re-read with `get`
immediately before the (C+1)-th `put`, the first key is retained and the
second-inserted key is evicted instead. (At C = 1 the second half fails,
see the counterexample: the first key is the only, hence
least-recently-used, entry and is evicted regardless of the `get`.) -/
theorem spec_C2 :
    (∀ (e0 : K × V) (es : List (K × V)) (elast : K × V),
       ((e0 :: es ++ [elast]).map Prod.fst).Nodup →
       ∃ s, (LruBox.empty K V (es.length + 1)).putList (e0 :: es ++ [elast]) = some s ∧
         s.entries = elast :: es.reverse ∧
         e0.1 ∉ s.keys ∧ ∀ k ∈ (es ++ [elast]).map Prod.fst, k ∈ s.keys) ∧
    (∀ (e0 e1 : K × V) (es : List (K × V)) (elast : K × V),
       ((e0 :: e1 :: es ++ [elast]).map Prod.fst).Nodup →
       ∃ s1 sg s2, (LruBox.empty K V (es.length + 2)).putList (e0 :: e1 :: es) = some s1 ∧
         s1.get e0.1 = (some e0.2, sg) ∧
         sg.put elast.1 elast.2 = some s2 ∧
         s2.entries = elast :: e0 :: es.reverse ∧
         e0.1 ∈ s2.keys ∧ e1.1 ∉ s2.keys ∧ elast.1 ∈ s2.keys) := by
  constructor
  · intro e0 es elast hnd
    have hshape : (e0.1 :: (es.map Prod.fst ++ [elast.1])).Nodup := by
      simpa only [List.map_cons, List.map_append, List.map_nil,
        List.cons_append] using hnd
    obtain ⟨h00, h0l, hndes, hl0⟩ := nodup_sandwich hshape
    set l := e0 :: es with hl
    have hndl : (l.map Prod.fst).Nodup := by
      rw [hl, List.map_cons, List.nodup_cons]
      exact ⟨h00, hndes⟩
    have hfill : (LruBox.empty K V (es.length + 1)).putList l =
        some ⟨es.length + 1, l.reverse⟩ := by
      have := LruBox.putList_fresh l (LruBox.empty K V (es.length + 1))
        hndl (by intro k hk; simp [LruBox.empty, LruBox.keys])
        (by simp [LruBox.empty, hl])
      simpa [LruBox.empty] using this
    have hsplit : e0 :: es ++ [elast] = l ++ [elast] := by simp [hl]
    rw [hsplit, LruBox.putList_append, hfill]
    have hrev : l.reverse = es.reverse ++ [e0] := by simp [hl]
    have hput : (⟨es.length + 1, l.reverse⟩ : LruBox K V).put elast.1 elast.2 =
        some ⟨es.length + 1, elast :: es.reverse⟩ := by
      have hlastfresh : elast.1 ∉ (⟨es.length + 1, l.reverse⟩ : LruBox K V).keys := by
        simp only [LruBox.keys, List.map_reverse, List.mem_reverse, hl,
          List.map_cons, List.mem_cons, not_or]
        exact ⟨fun h => h0l h.symm, hl0⟩
      have hevict := @LruBox.put_evict K V _ ⟨es.length + 1, l.reverse⟩
        elast.1 elast.2 hlastfresh (by simp [hl]) (by simp [hl])
      rw [hevict, hrev, List.dropLast_concat]
    simp only [Option.some_bind]
    unfold LruBox.putList
    rw [hput]
    refine ⟨⟨es.length + 1, elast :: es.reverse⟩, rfl, rfl, ?_, ?_⟩
    · simp only [LruBox.keys, List.map_cons, List.mem_cons, List.map_reverse,
        List.mem_reverse, not_or]
      exact ⟨h0l, h00⟩
    · intro k hk
      simp only [List.map_append, List.mem_append, List.map_cons, List.map_nil,
        List.mem_cons, List.not_mem_nil, or_false] at hk
      simp only [LruBox.keys, List.map_cons, List.mem_cons, List.map_reverse,
        List.mem_reverse]
      tauto
  · intro e0 e1 es elast hnd
    have hshape : (e0.1 :: ((e1.1 :: es.map Prod.fst) ++ [elast.1])).Nodup := by
      simpa only [List.map_cons, List.map_append, List.map_nil,
        List.cons_append] using hnd
    obtain ⟨h0mid, h0l, hmid, hlmid⟩ := nodup_sandwich hshape
    rw [List.mem_cons, not_or] at h0mid
    obtain ⟨h01, h0es⟩ := h0mid
    rcases List.nodup_cons.mp hmid with ⟨h1es, hndes⟩
    rw [List.mem_cons, not_or] at hlmid
    obtain ⟨hl1, hles⟩ := hlmid
    set l := e0 :: e1 :: es with hl
    have hndl : (l.map Prod.fst).Nodup := by
      rw [hl, List.map_cons, List.map_cons, List.nodup_cons, List.nodup_cons]
      refine ⟨?_, h1es, hndes⟩
      rw [List.mem_cons, not_or]
      exact ⟨h01, h0es⟩
    have hfill : (LruBox.empty K V (es.length + 2)).putList l =
        some ⟨es.length + 2, l.reverse⟩ := by
      have := LruBox.putList_fresh l (LruBox.empty K V (es.length + 2))
        hndl (by intro k hk; simp [LruBox.empty, LruBox.keys])
        (by simp [LruBox.empty, hl])
      simpa [LruBox.empty] using this
    have hrev : l.reverse = (es.reverse ++ [e1]) ++ [e0] := by
      simp [hl, List.append_assoc]
    have hget : (⟨es.length + 2, l.reverse⟩ : LruBox K V).get e0.1 =
        (some e0.2, ⟨es.length + 2, e0 :: (es.reverse ++ [e1])⟩) := by
      have hfresh : e0.1 ∉ (es.reverse ++ [e1]).map Prod.fst := by
        simp only [List.map_append, List.mem_append, List.map_reverse,
          List.mem_reverse, List.map_cons, List.map_nil, List.mem_cons,
          List.not_mem_nil, or_false, not_or]
        exact ⟨h0es, h01⟩
      have := LruBox.get_mem_entry (es.length + 2) (es.reverse ++ [e1]) e0 [] hfresh
      rw [hrev]
      simpa using this
    have hput : (⟨es.length + 2, e0 :: (es.reverse ++ [e1])⟩ : LruBox K V).put
        elast.1 elast.2 = some ⟨es.length + 2, elast :: e0 :: es.reverse⟩ := by
      have hlastfresh : elast.1 ∉
          (⟨es.length + 2, e0 :: (es.reverse ++ [e1])⟩ : LruBox K V).keys := by
        simp only [LruBox.keys, List.map_cons, List.mem_cons, List.map_append,
          List.mem_append, List.map_reverse, List.mem_reverse, List.map_nil,
          List.not_mem_nil, or_false, not_or]
        exact ⟨fun h => h0l h.symm, hles, fun h => hl1 h⟩
      have hevict := @LruBox.put_evict K V _
        ⟨es.length + 2, e0 :: (es.reverse ++ [e1])⟩
        elast.1 elast.2 hlastfresh (by simp) (by simp)
      rw [hevict]
      have hdrop : (e0 :: (es.reverse ++ [e1])).dropLast = e0 :: es.reverse := by
        rw [← List.cons_append, List.dropLast_concat]
      rw [hdrop]
    refine ⟨⟨es.length + 2, l.reverse⟩, ⟨es.length + 2, e0 :: (es.reverse ++ [e1])⟩,
      ⟨es.length + 2, elast :: e0 :: es.reverse⟩, hfill, hget, hput, rfl, ?_, ?_, ?_⟩
    · simp [LruBox.keys]
    · simp only [LruBox.keys, List.map_cons, List.mem_cons, List.map_reverse,
        List.mem_reverse, not_or]
      exact ⟨fun h => hl1 h.symm, fun h => h01 h.symm, h1es⟩
    · simp [LruBox.keys]

/-- Witness for `spec_C2`: capacity 2 runs with keys 0, 1, 2 (values 100,
101, 102). Without the re-read, key 0 is evicted; with `get 0` before the
third `put`, key 0 survives and key 1 is evicted. -/
theorem spec_C2_witness :
    (∃ s : LruBox Nat Nat,
      (LruBox.empty Nat Nat ([((1 : Nat), (101 : Nat))].length + 1)).putList
          ((0, 100) :: [(1, 101)] ++ [(2, 102)]) = some s ∧
        s.entries = (2, 102) :: [(1, 101)].reverse ∧
        (0 : Nat) ∉ s.keys ∧
        ∀ k ∈ (([(1, 101)] ++ [((2 : Nat), (102 : Nat))]).map Prod.fst), k ∈ s.keys) ∧
    (∃ s1 sg s2 : LruBox Nat Nat,
      (LruBox.empty Nat Nat (([] : List (Nat × Nat)).length + 2)).putList
          ((0, 100) :: (1, 101) :: []) = some s1 ∧
        s1.get 0 = (some 100, sg) ∧
        sg.put 2 102 = some s2 ∧
        s2.entries = (2, 102) :: (0, 100) :: ([] : List (Nat × Nat)).reverse ∧
        (0 : Nat) ∈ s2.keys ∧ (1 : Nat) ∉ s2.keys ∧ (2 : Nat) ∈ s2.keys) :=
  ⟨(@spec_C2 Nat Nat _).1 (0, 100) [(1, 101)] (2, 102) (by decide),
   (@spec_C2 Nat Nat _).2 (0, 100) (1, 101) [] (2, 102) (by decide)⟩

/-! ### Claim C8: get is side-effect-free on absence and idempotent on hits -/

/-- C8: `get` of an absent key returns empty and leaves the cache entirely
unchanged; and when `get` of a key returns a value, the touched state has
the same `size()`, and a repeated `get` of the same key returns the same
value again and leaves the state fixed — so repeated `get` never changes
`size()`. -/
theorem spec_C8 :
    (∀ (s : LruBox K V) (k : K), (s.get k).1 = none → s.get k = (none, s)) ∧
    (∀ (s : LruBox K V) (k : K) (v : V), (s.get k).1 = some v →
       (s.get k).2.size = s.size ∧
       (s.get k).2.get k = (some v, (s.get k).2)) := by
  constructor
  · intro s k h
    have h2 := LruBox.get_none_snd h
    calc s.get k = ((s.get k).1, (s.get k).2) := rfl
    _ = (none, s) := by rw [h, h2]
  · intro s k v h
    obtain ⟨tl, heq, hlen⟩ := LruBox.get_some_spec h
    constructor
    · rw [heq]
      simp only [LruBox.size]
      exact hlen
    · rw [heq]
      exact LruBox.get_head s.cap (k, v) tl

/-- Witness for `spec_C8`: on the cache `[(1, 10)]` of capacity 2, `get 5`
misses and leaves the state unchanged, while `get 1` hits with value 10,
keeps the size at 1 and is idempotent. -/
theorem spec_C8_witness :
    ((⟨2, [(1, 10)]⟩ : LruBox Nat Nat).get 5 = (none, ⟨2, [(1, 10)]⟩)) ∧
    (((⟨2, [(1, 10)]⟩ : LruBox Nat Nat).get 1).2.size = (⟨2, [(1, 10)]⟩ : LruBox Nat Nat).size ∧
      ((⟨2, [(1, 10)]⟩ : LruBox Nat Nat).get 1).2.get 1 =
        (some 10, ((⟨2, [(1, 10)]⟩ : LruBox Nat Nat).get 1).2)) :=
  ⟨(@spec_C8 Nat Nat _).1 ⟨2, [(1, 10)]⟩ 5 (by decide),
   (@spec_C8 Nat Nat _).2 ⟨2, [(1, 10)]⟩ 1 10 (by decide)⟩

/-! ### Claim C4: capacity-0 put reaches undefined behavior -/

/-- C4 is contradicted by the source: on a capacity-0 `LruBox`, a `put`
of any new key takes the eviction branch (`order_.size() >= cap_` is
`0 >= 0`) and executes `order_.back()` and `order_.pop_back()` on an
empty `std::deque` — undefined behavior, modelled as the `none` result —
instead of the well-defined immediate eviction the claim requires. -/
theorem spec_C4 : ∀ (k v : Nat), (LruBox.empty Nat Nat 0).put k v = none :=
  fun _ _ => rfl

/-! ### Claim C9: negative capacity at construction -/

/-- C9 as frozen is false: constructing `LruBox` with the negative
capacity -1 does not fail fast at construction. The `size_t` parameter
silently wraps to 2^64 - 1 and the resulting cache is fully usable: a
`put` succeeds, stores a retrievable entry, and `size()` becomes 1. -/
theorem spec_C9_counterexample :
    (LruBox.fromCapInt Nat Nat (-1)).cap = 18446744073709551615 ∧
    (LruBox.fromCapInt Nat Nat (-1)).put 7 3 =
      some ⟨18446744073709551615, [(7, 3)]⟩ ∧
    ((⟨18446744073709551615, [(7, 3)]⟩ : LruBox Nat Nat).get 7).1 = some 3 ∧
    (⟨18446744073709551615, [(7, 3)]⟩ : LruBox Nat Nat).size = 1 := by
  refine ⟨by decide, by decide, by decide, by decide⟩

/-- C9 (amended): constructing a cache with a negative capacity `c` (in
the 64-bit signed range) does not fail at construction; the capacity
parameter is an unsigned `size_t`, so `c` converts modulo 2^64 to the
huge positive capacity `c + 2^64 ≥ 2^63`, and the constructed cache is
usable — a `put` of a first entry succeeds and yields `size() = 1`. -/
theorem spec_C9 :
    ∀ c : Int, -(2 ^ 63) ≤ c → c < 0 →
      (LruBox.fromCapInt Nat Nat c).cap = (c + 2 ^ 64).toNat ∧
      0 < (LruBox.fromCapInt Nat Nat c).cap ∧
      (LruBox.fromCapInt Nat Nat c).put 0 0 =
        some ⟨(c + 2 ^ 64).toNat, [(0, 0)]⟩ ∧
      (LruBox.fromCapInt Nat Nat c).size = 0 := by
  intro c hlo hhi
  have hmod : c % 18446744073709551616 = c + 18446744073709551616 := by omega
  have hcap : (LruBox.fromCapInt Nat Nat c).cap = (c + 2 ^ 64).toNat := by
    simp only [LruBox.fromCapInt, hmod]
    norm_num
  have hpos : 0 < (LruBox.fromCapInt Nat Nat c).cap := by
    rw [hcap]
    omega
  refine ⟨hcap, hpos, ?_, rfl⟩
  have hput := @LruBox.put_of_not_mem Nat Nat _ (LruBox.fromCapInt Nat Nat c) 0 0
    (by simp [LruBox.fromCapInt, LruBox.keys]) hpos
  rw [hput, hcap]
  rfl

/-- Witness for `spec_C9` at the concrete negative capacity -1. -/
theorem spec_C9_witness :
    (LruBox.fromCapInt Nat Nat (-1)).cap = ((-1 : Int) + 2 ^ 64).toNat ∧
    0 < (LruBox.fromCapInt Nat Nat (-1)).cap ∧
    (LruBox.fromCapInt Nat Nat (-1)).put 0 0 =
      some ⟨((-1 : Int) + 2 ^ 64).toNat, [(0, 0)]⟩ ∧
    (LruBox.fromCapInt Nat Nat (-1)).size = 0 :=
  spec_C9 (-1) (by decide) (by decide)

/-! ### Claim C7: the adaptive knob thresholds -/

theorem dyadic_shift {my : Int} (ex : Int) (k : Nat) :
    ((my : ℚ) * 2 ^ k) * 2 ^ ex = (my : ℚ) * 2 ^ (ex + (k : ℤ)) := by
  rw [zpow_add₀ (by norm_num : (2 : ℚ) ≠ 0), zpow_natCast]
  ring

theorem dyadic_lt_right {mx ex my ey : Int} (h : ex ≤ ey) :
    mx < my * 2 ^ (ey - ex).toNat ↔
      (mx : ℚ) * 2 ^ ex < (my : ℚ) * 2 ^ ey := by
  obtain ⟨k, hk⟩ : ∃ k : Nat, ey = ex + (k : ℤ) := ⟨(ey - ex).toNat, by omega⟩
  subst hk
  rw [show (ex + (k : ℤ) - ex).toNat = k by omega]
  have h2 : (0 : ℚ) < (2 : ℚ) ^ ex := zpow_pos (by norm_num) _
  constructor
  · intro hlt
    have hq : (mx : ℚ) < (my : ℚ) * 2 ^ k := by exact_mod_cast hlt
    calc (mx : ℚ) * 2 ^ ex < ((my : ℚ) * 2 ^ k) * 2 ^ ex :=
          (mul_lt_mul_right h2).mpr hq
    _ = (my : ℚ) * 2 ^ (ex + (k : ℤ)) := dyadic_shift ex k
  · intro hlt
    have hq : (mx : ℚ) < (my : ℚ) * 2 ^ k := by
      rw [← dyadic_shift ex k] at hlt
      exact (mul_lt_mul_right h2).mp hlt
    exact_mod_cast hq

theorem dyadic_lt_left {mx ex my ey : Int} (h : ey ≤ ex) :
    mx * 2 ^ (ex - ey).toNat < my ↔
      (mx : ℚ) * 2 ^ ex < (my : ℚ) * 2 ^ ey := by
  obtain ⟨k, hk⟩ : ∃ k : Nat, ex = ey + (k : ℤ) := ⟨(ex - ey).toNat, by omega⟩
  subst hk
  rw [show (ey + (k : ℤ) - ey).toNat = k by omega]
  have h2 : (0 : ℚ) < (2 : ℚ) ^ ey := zpow_pos (by norm_num) _
  constructor
  · intro hlt
    have hq : (mx : ℚ) * 2 ^ k < (my : ℚ) := by exact_mod_cast hlt
    calc (mx : ℚ) * 2 ^ (ey + (k : ℤ)) = ((mx : ℚ) * 2 ^ k) * 2 ^ ey :=
          (dyadic_shift ey k).symm
    _ < (my : ℚ) * 2 ^ ey := (mul_lt_mul_right h2).mpr hq
  · intro hlt
    have hq : (mx : ℚ) * 2 ^ k < (my : ℚ) := by
      rw [← dyadic_shift ey k] at hlt
      exact (mul_lt_mul_right h2).mp hlt
    exact_mod_cast hq

theorem F64.blt_iff (x y : F64) : F64.blt x y = true ↔ x.toRat < y.toRat := by
  unfold F64.blt F64.toRat
  by_cases h : x.e ≤ y.e
  · rw [if_pos h, decide_eq_true_eq]
    exact dyadic_lt_right h
  · rw [if_neg h, decide_eq_true_eq]
    exact dyadic_lt_left (by omega)

/-- C7 as frozen fails on the code at representable double inputs:
budget_ms = 1.0 and recent_gen_ms equal to the binary64 value of the
literal 0.55 (`lit055 = 0.55000000000000004440892098500626…`, strictly
greater than the real 0.55, which is not representable). The claim's
exact threshold test `recent_gen_ms > 0.55 * budget_ms` holds at this
input, yet the code compares against the double product
`1.0 * lit055 = lit055` and returns result-set size 10 with cheap-mode
off instead of the claimed size 6 with cheap-mode on. -/
theorem spec_C7_counterexample :
    lit055.toRat > 0.55 * (⟨1, 0⟩ : F64).toRat ∧
    pick_knobs ⟨1, 0⟩ ⟨0, 0⟩ lit055 = ⟨10, 8, false⟩ := by
  constructor
  · show (2476979795053773 : ℚ) * (2 : ℚ) ^ (-52 : ℤ) >
      0.55 * ((1 : ℚ) * (2 : ℚ) ^ (0 : ℤ))
    norm_num
  · decide

/-- C7 (amended): the Knob Selector's two threshold tests are evaluated
independently, in binary64 double arithmetic: result-set size is 6 with
cheap-mode on exactly when recent_gen_ms exceeds the rounded double
product of budget_ms and the double value of the literal 0.55 (strictly
greater than the real 0.55), else 10 with cheap-mode off; batch is 16
exactly when recent_retrieval_ms exceeds the double product of budget_ms
and 0.25 (exact in binary64), else 8. The Boolean double comparison
agrees with the exact order on the represented values, and at the
driver's budget of 40 the two double thresholds evaluate exactly to 22
and 10, so the spec's concrete checks hold unchanged. -/
theorem spec_C7 :
    (∀ (budget_ms recent_retrieval_ms recent_gen_ms : F64),
      pick_knobs budget_ms recent_retrieval_ms recent_gen_ms =
        ⟨if F64.blt (F64.mul budget_ms lit055) recent_gen_ms then 6 else 10,
         if F64.blt (F64.mul budget_ms lit025) recent_retrieval_ms then 16 else 8,
         if F64.blt (F64.mul budget_ms lit055) recent_gen_ms then true else false⟩) ∧
    (∀ x y : F64, F64.blt x y = true ↔ x.toRat < y.toRat) ∧
    (F64.mul ⟨40, 0⟩ lit055).toRat = 22 ∧
    (F64.mul ⟨40, 0⟩ lit025).toRat = 10 ∧
    pick_knobs ⟨40, 0⟩ ⟨5, 0⟩ ⟨25, 0⟩ = ⟨6, 8, true⟩ ∧
    pick_knobs ⟨40, 0⟩ ⟨20, 0⟩ ⟨10, 0⟩ = ⟨10, 16, false⟩ := by
  refine ⟨fun _ _ _ => rfl, F64.blt_iff, ?_, ?_, by decide, by decide⟩
  · have h : F64.mul ⟨40, 0⟩ lit055 = ⟨6192449487634432, -48⟩ := by decide
    rw [h]
    show (6192449487634432 : ℚ) * (2 : ℚ) ^ (-48 : ℤ) = 22
    norm_num
  · have h : F64.mul ⟨40, 0⟩ lit025 = ⟨40, -2⟩ := by decide
    rw [h]
    show (40 : ℚ) * (2 : ℚ) ^ (-2 : ℤ) = 10
    norm_num

/-! ### Claim C6: retrieval determinism and strictly ascending output -/

theorem chain'_lt_of_sorted_le :
    ∀ (l : List Int), List.Sorted (fun a b => a ≤ b) l →
      List.Chain' (fun a b => a ≠ b) l → List.Chain' (fun a b => a < b) l
  | [], _, _ => List.chain'_nil
  | [_], _, _ => List.chain'_singleton _
  | a :: b :: t, hle, hne => by
    rw [List.chain'_cons] at hne ⊢
    rcases hne with ⟨hab, hne2⟩
    rcases List.sorted_cons.mp hle with ⟨hall, hle2⟩
    exact ⟨lt_of_le_of_ne (hall b (by simp)) hab,
      chain'_lt_of_sorted_le (b :: t) hle2 hne2⟩

/-- C6: the retrieval collaborator is deterministic — two calls with
identical (request text, result-set size) yield identical identifier
sequences — and every returned sequence is strictly ascending with no
duplicates. -/
theorem spec_C6 :
    (∀ (q1 q2 : String) (k1 k2 : Int), q1 = q2 → k1 = k2 →
       fake_retrieval q1 k1 = fake_retrieval q2 k2) ∧
    (∀ (q : String) (top_k : Int),
       List.Sorted (· < ·) (fake_retrieval q top_k) ∧
       (fake_retrieval q top_k).Nodup) := by
  constructor
  · rintro q1 q2 k1 k2 rfl rfl
    rfl
  · intro q top_k
    have hgoal : List.Sorted (· < ·) (fake_retrieval q top_k) := by
      simp only [fake_retrieval]
      set hits := (List.range top_k.toNat).map (fun i => rng_draw q i) with hh
      have hsorted : List.Sorted (fun a b => a ≤ b)
          (List.insertionSort (fun a b => a ≤ b) hits) :=
        List.sorted_insertionSort (fun a b => a ≤ b) hits
      have hsub := List.destutter_sublist (fun a b : Int => a ≠ b)
        (List.insertionSort (fun a b => a ≤ b) hits)
      have hle : List.Sorted (fun a b : Int => a ≤ b)
          ((List.insertionSort (fun a b => a ≤ b) hits).destutter (fun a b => a ≠ b)) :=
        List.Pairwise.sublist hsub hsorted
      have hne := List.destutter_is_chain' (fun a b : Int => a ≠ b)
        (List.insertionSort (fun a b => a ≤ b) hits)
      have hchain := chain'_lt_of_sorted_le _ hle hne
      exact (List.chain'_iff_pairwise).mp hchain
    exact ⟨hgoal, hgoal.nodup⟩

/-- Witness for `spec_C6` at a concrete request text and result-set
size 10 (determinism instantiated at equal inputs). -/
theorem spec_C6_witness :
    (fake_retrieval "what is rag latency?" 10 = fake_retrieval "what is rag latency?" 10) ∧
    (List.Sorted (· < ·) (fake_retrieval "what is rag latency?" 10) ∧
      (fake_retrieval "what is rag latency?" 10).Nodup) :=
  ⟨spec_C6.1 "what is rag latency?" "what is rag latency?" 10 10 rfl rfl,
   spec_C6.2 "what is rag latency?" 10⟩

/-! ### Lemmas on fragment resolution and the budget loop -/

theorem resolve_one_eq_hit {c : LruBox Int String} {id : Int} {piece : String}
    (h : (c.get id).1 = some piece) :
    resolve_one c id = some (piece, (c.get id).2) := by
  unfold resolve_one
  rcases hg : c.get id with ⟨o, cg⟩
  rw [hg] at h
  simp only at h
  subst h
  rfl

theorem resolve_one_eq_miss {c : LruBox Int String} {id : Int}
    (h : (c.get id).1 = none) :
    resolve_one c id =
      (c.put id (fake_doc_text id)).map (fun c3 => (fake_doc_text id, c3)) := by
  have h2 : c.get id = (none, c) := by
    have := LruBox.get_none_snd h
    calc c.get id = ((c.get id).1, (c.get id).2) := rfl
    _ = (none, c) := by rw [h, this]
  unfold resolve_one
  rw [h2]

theorem resolve_one_spec {c c2 : LruBox Int String} {id : Int} {p : String}
    (h : resolve_one c id = some (p, c2)) :
    c2.cap = c.cap ∧ id ∈ c2.keys := by
  rcases ho : (c.get id).1 with _ | piece
  · rw [resolve_one_eq_miss ho] at h
    simp only [Option.map_eq_some'] at h
    obtain ⟨c3, hput, heq⟩ := h
    have hc3 : c3 = c2 := congrArg Prod.snd heq
    subst hc3
    obtain ⟨tl, htl⟩ := LruBox.put_head hput
    refine ⟨LruBox.put_cap hput, ?_⟩
    rw [LruBox.keys, htl]
    simp
  · rw [resolve_one_eq_hit ho] at h
    obtain ⟨tl, hget, _⟩ := LruBox.get_some_spec ho
    have hc2 : (c.get id).2 = c2 := congrArg Prod.snd (Option.some.inj h)
    have hsnd : (c.get id).2 = ⟨c.cap, (id, piece) :: tl⟩ := congrArg Prod.snd hget
    rw [← hc2, hsnd]
    exact ⟨rfl, by simp [LruBox.keys]⟩

theorem resolve_one_total {c : LruBox Int String} (id : Int) (h : 0 < c.cap) :
    ∃ p c2, resolve_one c id = some (p, c2) := by
  rcases ho : (c.get id).1 with _ | piece
  · rw [resolve_one_eq_miss ho]
    obtain ⟨tl, hput⟩ := LruBox.put_some_of_cap_pos c id (fake_doc_text id) h
    rw [hput]
    exact ⟨_, _, rfl⟩
  · rw [resolve_one_eq_hit ho]
    exact ⟨_, _, rfl⟩

theorem resolve_list_cap :
    ∀ {ids : List Int} {c c2 : LruBox Int String} {ps : List String},
      resolve_list ids c = some (ps, c2) → c2.cap = c.cap := by
  intro ids
  induction ids with
  | nil =>
    intro c c2 ps h
    unfold resolve_list at h
    cases h
    rfl
  | cons id rest ih =>
    intro c c2 ps h
    unfold resolve_list at h
    split at h
    · exact absurd h (by simp)
    · next p c1 hres =>
      split at h
      · exact absurd h (by simp)
      · next ps3 c3 hrl =>
        cases h
        rw [ih hrl, (resolve_one_spec hres).1]

theorem resolve_list_append :
    ∀ (l1 l2 : List Int) (c : LruBox Int String),
      resolve_list (l1 ++ l2) c =
        (resolve_list l1 c).bind
          (fun pc => (resolve_list l2 pc.2).map (fun qc => (pc.1 ++ qc.1, qc.2))) := by
  intro l1
  induction l1 with
  | nil =>
    intro l2 c
    simp only [List.nil_append, resolve_list, Option.some_bind]
    rcases h : resolve_list l2 c with _ | qc
    · rfl
    · rfl
  | cons id rest ih =>
    intro l2 c
    rcases hres : resolve_one c id with _ | pc
    · show (match resolve_one c id with
            | none => none
            | some (p, c2) =>
              match resolve_list (rest ++ l2) c2 with
              | none => none
              | some (ps, c3) => some (p :: ps, c3)) = _
      rw [hres]
      show none = _
      show (none : Option (List String × LruBox Int String)) =
        ((match resolve_one c id with
          | none => none
          | some (p, c2) =>
            match resolve_list rest c2 with
            | none => none
            | some (ps, c3) => some (p :: ps, c3)) :
              Option (List String × LruBox Int String)).bind
          (fun pc => (resolve_list l2 pc.2).map (fun qc => (pc.1 ++ qc.1, qc.2)))
      rw [hres]
      rfl
    · obtain ⟨p, c1⟩ := pc
      show (match resolve_one c id with
            | none => none
            | some (p, c2) =>
              match resolve_list (rest ++ l2) c2 with
              | none => none
              | some (ps, c3) => some (p :: ps, c3)) =
        ((match resolve_one c id with
          | none => none
          | some (p, c2) =>
            match resolve_list rest c2 with
            | none => none
            | some (ps, c3) => some (p :: ps, c3)) :
              Option (List String × LruBox Int String)).bind
          (fun pc => (resolve_list l2 pc.2).map (fun qc => (pc.1 ++ qc.1, qc.2)))
      rw [hres]
      simp only
      rw [ih l2 c1]
      rcases hrl : resolve_list rest c1 with _ | qc
      · rfl
      · obtain ⟨ps, c2⟩ := qc
        simp only [Option.some_bind]
        rcases hrl2 : resolve_list l2 c2 with _ | rc
        · rfl
        · obtain ⟨ps3, c3⟩ := rc
          rfl

theorem build_context_go_cons_some {c c2 : LruBox Int String} {id : Int}
    {p : String} (rest : List Int) (B : Int) (acc : String)
    (hres : resolve_one c id = some (p, c2)) :
    build_context_go (id :: rest) c B acc =
      if B - 40 < 0 then some (acc, c2)
      else build_context_go rest c2 (B - 40) (acc ++ p ++ "\n") := by
  show (match resolve_one c id with
        | none => none
        | some (piece, c3) =>
          if B - 40 < 0 then some (acc, c3)
          else build_context_go rest c3 (B - 40) (acc ++ piece ++ "\n")) = _
  rw [hres]

theorem resolve_list_cons_some {c c2 : LruBox Int String} {id : Int}
    {p : String} (rest : List Int) (hres : resolve_one c id = some (p, c2)) :
    resolve_list (id :: rest) c =
      match resolve_list rest c2 with
      | none => none
      | some (ps, c3) => some (p :: ps, c3) := by
  show (match resolve_one c id with
        | none => none
        | some (q, c3) =>
          match resolve_list rest c3 with
          | none => none
          | some (ps, c4) => some (q :: ps, c4)) = _
  rw [hres]

theorem build_context_go_spec :
    ∀ (ids : List Int) (c : LruBox Int String) (B : Int) (acc : String),
      0 < c.cap →
      ∃ pieces c1 pieces2 c2,
        resolve_list (ids.take (appendCount ids.length B)) c = some (pieces, c1) ∧
        resolve_list (ids.take (appendCount ids.length B + 1)) c = some (pieces2, c2) ∧
        pieces.length = appendCount ids.length B ∧
        build_context_go ids c B acc = some (acc ++ joinPieces pieces, c2) := by
  intro ids
  induction ids with
  | nil =>
    intro c B acc _
    refine ⟨[], c, [], c, rfl, rfl, rfl, ?_⟩
    show some (acc, c) = some (acc ++ joinPieces [], c)
    simp only [joinPieces, String.append_empty]
  | cons id rest ih =>
    intro c B acc h
    obtain ⟨p, c', hres⟩ := resolve_one_total id h
    have hcap' : c'.cap = c.cap := (resolve_one_spec hres).1
    by_cases hB : B - 40 < 0
    · have hk : appendCount (id :: rest).length B = 0 := by
        simp only [List.length_cons, appendCount, if_pos hB]
      refine ⟨[], c, [p], c', ?_, ?_, ?_, ?_⟩
      · rw [hk]
        rfl
      · rw [hk]
        show resolve_list [id] c = some ([p], c')
        rw [resolve_list_cons_some [] hres]
        rfl
      · rw [hk]
        rfl
      · rw [build_context_go_cons_some rest B acc hres, if_pos hB]
        show some (acc, c') = some (acc ++ joinPieces [], c')
        simp only [joinPieces, String.append_empty]
    · have hk : appendCount (id :: rest).length B =
          appendCount rest.length (B - 40) + 1 := by
        simp only [List.length_cons, appendCount, if_neg hB]
      obtain ⟨pieces1, c1, pieces2, c2, h1, h2, hlen, hgo⟩ :=
        ih c' (B - 40) (acc ++ p ++ "\n") (by rw [hcap']; exact h)
      refine ⟨p :: pieces1, c1, p :: pieces2, c2, ?_, ?_, ?_, ?_⟩
      · rw [hk]
        show resolve_list (id :: rest.take (appendCount rest.length (B - 40))) c = _
        rw [resolve_list_cons_some _ hres, h1]
      · rw [hk]
        show resolve_list (id :: rest.take (appendCount rest.length (B - 40) + 1)) c = _
        rw [resolve_list_cons_some _ hres, h2]
      · rw [hk]
        simp only [List.length_cons, hlen]
      · rw [build_context_go_cons_some rest B acc hres, if_neg hB, hgo]
        have hstr : (acc ++ p ++ "\n") ++ joinPieces pieces1 =
            acc ++ joinPieces (p :: pieces1) := by
          simp only [joinPieces, String.append_assoc]
        rw [hstr]

theorem build_context_spec (doc_ids : List Int) (c : LruBox Int String)
    (B : Int) (h : 0 < c.cap) :
    ∃ pieces c1 pieces2 c2,
      resolve_list (doc_ids.take (appendCount doc_ids.length B)) c = some (pieces, c1) ∧
      resolve_list (doc_ids.take (appendCount doc_ids.length B + 1)) c = some (pieces2, c2) ∧
      pieces.length = appendCount doc_ids.length B ∧
      build_context doc_ids c B = some (joinPieces pieces, c2) := by
  obtain ⟨pieces, c1, pieces2, c2, h1, h2, hlen, hgo⟩ :=
    build_context_go_spec doc_ids c B "" h
  rw [String.empty_append] at hgo
  exact ⟨pieces, c1, pieces2, c2, h1, h2, hlen, hgo⟩

theorem appendCount_le : ∀ (n : Nat) (B : Int), appendCount n B ≤ n
  | 0, _ => Nat.le_refl 0
  | n + 1, B => by
    unfold appendCount
    by_cases hB : B - 40 < 0
    · rw [if_pos hB]
      omega
    · rw [if_neg hB]
      have := appendCount_le n (B - 40)
      omega

theorem appendCount_forty : ∀ n : Nat, appendCount n (40 * (n : Int) - 1) = n - 1
  | 0 => rfl
  | n + 1 => by
    unfold appendCount
    cases n with
    | zero =>
      norm_num
    | succ m =>
      have hge : ¬(40 * (((m + 1 : Nat) + 1 : Nat) : Int) - 1 - 40 < 0) := by
        push_cast
        omega
      rw [if_neg hge]
      have harith : 40 * (((m + 1 : Nat) + 1 : Nat) : Int) - 1 - 40 =
          40 * ((m + 1 : Nat) : Int) - 1 := by
        push_cast
        ring
      rw [harith, appendCount_forty (m + 1)]
      omega

/-! ### Claim C3: first-fit budget accounting in the Context Assembler -/

/-- C3: the Context Assembler scans identifiers first to last against a
remaining-budget counter started at the budget, each fragment costing
exactly 40; the fragments actually appended are precisely the resolved
pieces of the first `appendCount` identifiers (the first fragment that
would drive the counter negative is not appended and no later identifier
is considered), concatenated in input order, each followed by the single
separator `"\n"`; and for `n` identifiers with budget exactly `40*n - 1`
the number of appended fragments is exactly `n - 1`. -/
theorem spec_C3 :
    (∀ (doc_ids : List Int) (c : LruBox Int String) (token_budget : Int),
        0 < c.cap →
        ∃ pieces c1 c2,
          resolve_list (doc_ids.take (appendCount doc_ids.length token_budget)) c =
            some (pieces, c1) ∧
          pieces.length = appendCount doc_ids.length token_budget ∧
          build_context doc_ids c token_budget = some (joinPieces pieces, c2)) ∧
    (∀ n : Nat, appendCount n (40 * (n : Int) - 1) = n - 1) := by
  constructor
  · intro doc_ids c token_budget h
    obtain ⟨pieces, c1, pieces2, c2, h1, _, hlen, hgo⟩ :=
      build_context_spec doc_ids c token_budget h
    exact ⟨pieces, c1, c2, h1, hlen, hgo⟩
  · exact appendCount_forty

/-- Witness for `spec_C3`: three identifiers against an empty fragment
cache of capacity 4096 with budget 119 = 40·3 − 1 append exactly 2
fragments. -/
theorem spec_C3_witness :
    (∃ pieces c1 c2,
      resolve_list ([1, 2, 3].take (appendCount 3 119)) (LruBox.empty Int String 4096) =
        some (pieces, c1) ∧
      pieces.length = appendCount 3 119 ∧
      build_context [1, 2, 3] (LruBox.empty Int String 4096) 119 =
        some (joinPieces pieces, c2)) ∧
    appendCount 3 (40 * 3 - 1) = 3 - 1 :=
  ⟨spec_C3.1 [1, 2, 3] (LruBox.empty Int String 4096) 119 (by decide),
   spec_C3.2 3⟩

theorem build_context_go_cons_none {c : LruBox Int String} {id : Int}
    (rest : List Int) (B : Int) (acc : String)
    (hres : resolve_one c id = none) :
    build_context_go (id :: rest) c B acc = none := by
  show (match resolve_one c id with
        | none => none
        | some (piece, c3) =>
          if B - 40 < 0 then some (acc, c3)
          else build_context_go rest c3 (B - 40) (acc ++ piece ++ "\n")) = _
  rw [hres]

theorem build_context_go_take :
    ∀ (ids : List Int) (c : LruBox Int String) (B : Int) (acc : String),
      build_context_go ids c B acc =
        build_context_go (ids.take (appendCount ids.length B + 1)) c B acc
  | [], _, _, _ => rfl
  | id :: rest, c, B, acc => by
    rcases hres : resolve_one c id with _ | pc
    · rw [build_context_go_cons_none rest B acc hres]
      show (none : Option (String × LruBox Int String)) =
        build_context_go (id :: rest.take (appendCount (id :: rest).length B)) c B acc
      rw [build_context_go_cons_none _ B acc hres]
    · obtain ⟨p, c2⟩ := pc
      by_cases hB : B - 40 < 0
      · have hk : appendCount (id :: rest).length B = 0 := by
          simp only [List.length_cons, appendCount, if_pos hB]
        rw [hk]
        rw [build_context_go_cons_some rest B acc hres, if_pos hB]
        show _ = build_context_go [id] c B acc
        rw [build_context_go_cons_some [] B acc hres, if_pos hB]
      · have hk : appendCount (id :: rest).length B =
            appendCount rest.length (B - 40) + 1 := by
          simp only [List.length_cons, appendCount, if_neg hB]
        rw [hk]
        rw [build_context_go_cons_some rest B acc hres, if_neg hB]
        show _ = build_context_go
          (id :: rest.take (appendCount rest.length (B - 40) + 1)) c B acc
        rw [build_context_go_cons_some _ B acc hres, if_neg hB]
        exact build_context_go_take rest c2 (B - 40) (acc ++ p ++ "\n")

/-! ### Claim C10: resolution stops exactly after the first over-budget id -/

/-- C10: `build_context` resolves identifiers strictly in input order up
to and including the first identifier whose 40-unit cost would overdraw
the budget: its whole result (text and final fragment-cache state) equals
the run on just that prefix, so later identifiers are never resolved and
leave the fragment cache completely unchanged; and the stop identifier
itself (index `appendCount`) is resolved into the fragment cache — it is
among the final cache's keys — even though it is not appended. -/
theorem spec_C10 :
    ∀ (doc_ids : List Int) (c : LruBox Int String) (token_budget : Int),
      0 < c.cap →
      (build_context doc_ids c token_budget =
        build_context
          (doc_ids.take (appendCount doc_ids.length token_budget + 1)) c
          token_budget) ∧
      (∀ id, doc_ids[appendCount doc_ids.length token_budget]? = some id →
        ∃ t c2, build_context doc_ids c token_budget = some (t, c2) ∧
          id ∈ c2.keys) := by
  intro doc_ids c B h
  constructor
  · exact build_context_go_take doc_ids c B ""
  · intro id hid
    obtain ⟨pieces, c1, pieces2, c2, h1, h2, hlen, hgo⟩ :=
      build_context_spec doc_ids c B h
    refine ⟨joinPieces pieces, c2, hgo, ?_⟩
    have htake : doc_ids.take (appendCount doc_ids.length B + 1) =
        doc_ids.take (appendCount doc_ids.length B) ++ [id] := by
      rw [List.take_succ, hid]
      rfl
    rw [htake, resolve_list_append, h1] at h2
    simp only [Option.some_bind] at h2
    have hc1cap : 0 < c1.cap := by
      rw [resolve_list_cap h1]
      exact h
    obtain ⟨p2, c3, hres1⟩ := resolve_one_total id hc1cap
    have hsingle : resolve_list [id] c1 = some ([p2], c3) := by
      rw [resolve_list_cons_some [] hres1]
      rfl
    rw [hsingle, Option.map_some'] at h2
    have hc32 : c3 = c2 := congrArg Prod.snd (Option.some.inj h2)
    rw [← hc32]
    exact (resolve_one_spec hres1).2

/-- Witness for `spec_C10`: identifiers 1, 2, 3 with budget 40 append one
fragment; the run equals the run on the two-element prefix, and the stop
identifier 2 (index 1) is cached even though not appended. -/
theorem spec_C10_witness :
    (build_context [1, 2, 3] (LruBox.empty Int String 4096) 40 =
      build_context ([1, 2, 3].take (appendCount 3 40 + 1))
        (LruBox.empty Int String 4096) 40) ∧
    (∃ t c2, build_context [1, 2, 3] (LruBox.empty Int String 4096) 40 =
        some (t, c2) ∧ (2 : Int) ∈ c2.keys) :=
  ⟨(spec_C10 [1, 2, 3] (LruBox.empty Int String 4096) 40 (by decide)).1,
   (spec_C10 [1, 2, 3] (LruBox.empty Int String 4096) 40 (by decide)).2 2 (by decide)⟩

/-! ### Claim C5: serving the same request twice -/

theorem build_context_total {c : LruBox Int String} (doc_ids : List Int)
    (B : Int) (h : 0 < c.cap) :
    ∃ t c2, build_context doc_ids c B = some (t, c2) ∧ c2.cap = c.cap := by
  obtain ⟨pieces, c1, pieces2, c2, _, h2, _, hgo⟩ := build_context_spec doc_ids c B h
  exact ⟨joinPieces pieces, c2, hgo, resolve_list_cap h2⟩

theorem serve_one_miss {q : String} {rc rc2 : LruBox String (List Int)}
    {bc bc2 : LruBox Int String} {knobs : TuneKnobs} {t : String}
    (hmiss : rc.get q = (none, rc))
    (hput : rc.put q (fake_retrieval q knobs.top_k) = some rc2)
    (hbuild : build_context (fake_retrieval q knobs.top_k) bc
      (if knobs.cheap_mode then (220 : Int) else 320) = some (t, bc2)) :
    serve_one q rc bc knobs = some ⟨false, fake_retrieval q knobs.top_k,
      fake_generate q t knobs.cheap_mode, rc2, bc2⟩ := by
  unfold serve_one
  rw [hmiss]
  show ((match rc.put q (fake_retrieval q knobs.top_k) with
        | none => none
        | some rc3 =>
          match build_context (fake_retrieval q knobs.top_k) bc
              (if knobs.cheap_mode then (220 : Int) else 320) with
          | none => none
          | some (context, bc3) =>
            some ⟨false, fake_retrieval q knobs.top_k,
              fake_generate q context knobs.cheap_mode, rc3, bc3⟩) : Option ServeOut) = _
  rw [hput]
  show ((match build_context (fake_retrieval q knobs.top_k) bc
        (if knobs.cheap_mode then (220 : Int) else 320) with
      | none => none
      | some (context, bc3) =>
        some ⟨false, fake_retrieval q knobs.top_k,
          fake_generate q context knobs.cheap_mode, rc2, bc3⟩) : Option ServeOut) = _
  rw [hbuild]

theorem serve_one_hit {q : String} {rc rcg : LruBox String (List Int)}
    {bc bc2 : LruBox Int String} {knobs : TuneKnobs} {ids : List Int} {t : String}
    (hhit : rc.get q = (some ids, rcg))
    (hbuild : build_context ids bc
      (if knobs.cheap_mode then (220 : Int) else 320) = some (t, bc2)) :
    serve_one q rc bc knobs = some ⟨true, ids,
      fake_generate q t knobs.cheap_mode, rcg, bc2⟩ := by
  unfold serve_one
  rw [hhit]
  show ((match build_context ids bc
        (if knobs.cheap_mode then (220 : Int) else 320) with
      | none => none
      | some (context, bc3) =>
        some ⟨true, ids, fake_generate q context knobs.cheap_mode, rcg, bc3⟩) :
          Option ServeOut) = _
  rw [hbuild]

/-- C5: serving the same request text twice in a row through the
Orchestrator, starting from a retrieval cache that does not contain it,
yields `cache_hit = false` on the first request and `cache_hit = true` on
the second, and both requests use the identical document-identifier
sequence (whatever knobs each request runs with). -/
theorem spec_C5 :
    ∀ (question : String) (rc : LruBox String (List Int)) (bc : LruBox Int String)
      (knobs1 knobs2 : TuneKnobs),
      (rc.get question).1 = none → 0 < rc.cap → 0 < bc.cap →
      ∃ r1 r2 : ServeOut,
        serve_one question rc bc knobs1 = some r1 ∧
        serve_one question r1.retr_cache r1.block_cache knobs2 = some r2 ∧
        r1.cache_hit = false ∧ r2.cache_hit = true ∧ r2.doc_ids = r1.doc_ids := by
  intro q rc bc k1 k2 hmiss hrc hbc
  have hc : rc.get q = (none, rc) := by
    have h2 := LruBox.get_none_snd hmiss
    calc rc.get q = ((rc.get q).1, (rc.get q).2) := rfl
    _ = (none, rc) := by rw [hmiss, h2]
  obtain ⟨tl, hput⟩ :=
    LruBox.put_some_of_cap_pos rc q (fake_retrieval q k1.top_k) hrc
  obtain ⟨t1, bc1, hbuild1, hbc1cap⟩ :=
    build_context_total (fake_retrieval q k1.top_k)
      (if k1.cheap_mode then (220 : Int) else 320) hbc
  have hs1 := serve_one_miss hc hput hbuild1
  have hget2 := LruBox.get_head rc.cap (q, fake_retrieval q k1.top_k) tl
  obtain ⟨t2, bc2, hbuild2, _⟩ :=
    build_context_total (fake_retrieval q k1.top_k)
      (if k2.cheap_mode then (220 : Int) else 320) (hbc1cap ▸ hbc)
  have hs2 := serve_one_hit hget2 hbuild2
  exact ⟨⟨false, fake_retrieval q k1.top_k, fake_generate q t1 k1.cheap_mode,
      ⟨rc.cap, (q, fake_retrieval q k1.top_k) :: tl⟩, bc1⟩,
    ⟨true, fake_retrieval q k1.top_k, fake_generate q t2 k2.cheap_mode,
      ⟨rc.cap, (q, fake_retrieval q k1.top_k) :: tl⟩, bc2⟩,
    hs1, hs2, rfl, rfl, rfl⟩

/-- Witness for `spec_C5`: the request "what is rag latency?" served twice
from empty caches of capacities 512 and 4096 with the program's two knob
configurations. -/
theorem spec_C5_witness :
    ∃ r1 r2 : ServeOut,
      serve_one "what is rag latency?" (LruBox.empty String (List Int) 512)
        (LruBox.empty Int String 4096) ⟨10, 8, false⟩ = some r1 ∧
      serve_one "what is rag latency?" r1.retr_cache r1.block_cache
        ⟨6, 16, true⟩ = some r2 ∧
      r1.cache_hit = false ∧ r2.cache_hit = true ∧ r2.doc_ids = r1.doc_ids :=
  spec_C5 "what is rag latency?" (LruBox.empty String (List Int) 512)
    (LruBox.empty Int String 4096) ⟨10, 8, false⟩ ⟨6, 16, true⟩
    (by decide) (by decide) (by decide)
